import Mathlib

/-!
Verification of the path-resolution engine of `pyramid/traversal.py`.

Paths and segments are modelled as `List Char`; WSGI byte strings as
`List Nat` (each byte `< 256`).  Python functions from
`pyramid/traversal.py` keep their source names.  Collaborator code that
is not part of the repository snapshot (`pyramid.encode.url_quote`,
`pyramid.compat.decode_path_info` / `unquote_bytes_to_wsgi`,
`pyramid.location.lineage`, and the WebOb request used by `traverse`)
is modelled from the specification and marked as such in doc comments.
-/

/-! ## Definitions -/

/-- Convert a string literal to the `List Char` representation used
throughout this development. -/
def cs (s : String) : List Char := s.data

/-- Python's `"x".split('/')` on a list of characters: splitting on `'/'`
always yields at least one (possibly empty) segment. -/
def splitOnSlash : List Char → List (List Char)
  | [] => [[]]
  | c :: rest =>
    if c = '/' then [] :: splitOnSlash rest
    else
      match splitOnSlash rest with
      | [] => [[c]]
      | s :: ss => (c :: s) :: ss

/-- One step of the accumulation loop in `split_path_info`: empty and `"."`
segments are discarded, `".."` removes the previously accumulated segment
(`del clean[-1]`, a no-op when nothing is accumulated), anything else is
appended. -/
def cleanStep (acc : List (List Char)) (seg : List Char) : List (List Char) :=
  if seg = [] ∨ seg = ['.'] then acc
  else if seg = ['.', '.'] then acc.dropLast
  else acc ++ [seg]

/-- The whole accumulation loop of `split_path_info`. -/
def cleanSegments (segs : List (List Char)) : List (List Char) :=
  segs.foldl cleanStep []

/-- Python's `path.strip('/')`: remove every leading and trailing `'/'`. -/
def stripSlashes (p : List Char) : List Char :=
  ((p.dropWhile (· = '/')).reverse.dropWhile (· = '/')).reverse

/-- `split_path_info` (source lines 531-545): strip slashes from both ends,
split on `'/'`, then run the cleaning loop.  The `lru_cache` decoration is
semantically transparent (the function is pure) and is not modelled. -/
def split_path_info (p : List Char) : List (List Char) :=
  cleanSegments (splitOnSlash (stripSlashes p))

/-- Claim C3's reference procedure, following the specification's words:
strip exactly one leading `'/'`. -/
def dropOneLeadingSlash (p : List Char) : List Char :=
  match p with
  | [] => []
  | c :: rest => if c = '/' then rest else c :: rest

/-- Claim C3's reference procedure: strip exactly one trailing `'/'`. -/
def dropOneTrailingSlash (p : List Char) : List Char :=
  (dropOneLeadingSlash p.reverse).reverse

/-- Claim C3's reference definition of normalization, built from the spec's
words: strip exactly one leading and one trailing slash, split on `'/'`,
then run the discard/pop/append loop. -/
def splitPathInfoSpec (p : List Char) : List (List Char) :=
  cleanSegments (splitOnSlash (dropOneTrailingSlash (dropOneLeadingSlash p)))

/-- ASCII letters and digits, as byte values. -/
def isAlnumByte (b : Nat) : Bool :=
  (48 ≤ b && b ≤ 57) || (65 ≤ b && b ≤ 90) || (97 ≤ b && b ≤ 122)

/-- The default safe set for path segments (source line 25). -/
def PATH_SEGMENT_SAFE : List Char := cs "~!$&'()*+,;=:@"

/-- Upper-case hexadecimal digit of a value below 16, as a byte. -/
def hexDigitU (n : Nat) : Nat := if n < 10 then 48 + n else 55 + n

/-- Is the byte an ASCII hex digit (either case)? -/
def isHexB (b : Nat) : Bool :=
  (48 ≤ b && b ≤ 57) || (65 ≤ b && b ≤ 70) || (97 ≤ b && b ≤ 102)

/-- Value of an ASCII hex digit byte. -/
def hexVal (b : Nat) : Nat :=
  if 48 ≤ b && b ≤ 57 then b - 48
  else if 65 ≤ b && b ≤ 70 then b - 55
  else if 97 ≤ b && b ≤ 102 then b - 87
  else 0

/-- UTF-8 encoding of a single code point (1 to 4 bytes). -/
def utf8EncodeCp (n : Nat) : List Nat :=
  if n < 128 then [n]
  else if n < 2048 then [192 + n / 64, 128 + n % 64]
  else if n < 65536 then [224 + n / 4096, 128 + (n / 64) % 64, 128 + n % 64]
  else [240 + n / 262144, 128 + (n / 4096) % 64, 128 + (n / 64) % 64, 128 + n % 64]

/-- UTF-8 encoding of a character. -/
def utf8EncodeChar (c : Char) : List Nat := utf8EncodeCp c.toNat

/-- UTF-8 encoding of a text. -/
def utf8Encode (s : List Char) : List Nat := (s.map utf8EncodeChar).flatten

/-- Failure data of a UTF-8 decode, mirroring Python's
`UnicodeDecodeError`: offending byte range `[start, stop)` and reason. -/
structure UDecErr where
  start : Nat
  stop : Nat
  reason : List Char
deriving DecidableEq

/-- Is the byte a UTF-8 continuation byte? -/
def contOk (b : Nat) : Bool := 128 ≤ b && b < 192

/-- Prepend a decoded character to the result of decoding the remaining
bytes, propagating failure. -/
def consChar (c : Char) : Except UDecErr (List Char) → Except UDecErr (List Char)
  | .error e => .error e
  | .ok s => .ok (c :: s)

/-- Modelled from the spec: strict UTF-8 decoding of a byte sequence
(`decodeSegment`'s failure mode, spec section 4.1), tracking the byte
position for error reporting.  Overlong encodings, surrogates and
out-of-range lead bytes are rejected as CPython's strict codec does. -/
def utf8DecodeLoop : Nat → List Nat → Except UDecErr (List Char)
  | _, [] => .ok []
  | i, b :: rest =>
    if b < 128 then consChar (Char.ofNat b) (utf8DecodeLoop (i + 1) rest)
    else if b < 194 then .error ⟨i, i + 1, cs "invalid start byte"⟩
    else if b < 224 then
      match rest with
      | [] => .error ⟨i, i + 1, cs "unexpected end of data"⟩
      | b1 :: rest' =>
        if contOk b1 then
          consChar (Char.ofNat ((b - 192) * 64 + (b1 - 128)))
            (utf8DecodeLoop (i + 2) rest')
        else .error ⟨i, i + 1, cs "invalid continuation byte"⟩
    else if b < 240 then
      match rest with
      | [] => .error ⟨i, i + 1, cs "unexpected end of data"⟩
      | b1 :: rest' =>
        if (if b = 224 then 160 ≤ b1 && b1 < 192
            else if b = 237 then 128 ≤ b1 && b1 < 160
            else contOk b1) then
          match rest' with
          | [] => .error ⟨i, i + 2, cs "unexpected end of data"⟩
          | b2 :: rest'' =>
            if contOk b2 then
              consChar (Char.ofNat ((b - 224) * 4096 + (b1 - 128) * 64 + (b2 - 128)))
                (utf8DecodeLoop (i + 3) rest'')
            else .error ⟨i, i + 2, cs "invalid continuation byte"⟩
        else .error ⟨i, i + 1, cs "invalid continuation byte"⟩
    else if b < 245 then
      match rest with
      | [] => .error ⟨i, i + 1, cs "unexpected end of data"⟩
      | b1 :: rest' =>
        if (if b = 240 then 144 ≤ b1 && b1 < 192
            else if b = 244 then 128 ≤ b1 && b1 < 144
            else contOk b1) then
          match rest' with
          | [] => .error ⟨i, i + 2, cs "unexpected end of data"⟩
          | b2 :: rest'' =>
            if contOk b2 then
              match rest'' with
              | [] => .error ⟨i, i + 3, cs "unexpected end of data"⟩
              | b3 :: rest3 =>
                if contOk b3 then
                  consChar (Char.ofNat
                      ((b - 240) * 262144 + (b1 - 128) * 4096 +
                        (b2 - 128) * 64 + (b3 - 128)))
                    (utf8DecodeLoop (i + 4) rest3)
                else .error ⟨i, i + 3, cs "invalid continuation byte"⟩
            else .error ⟨i, i + 2, cs "invalid continuation byte"⟩
        else .error ⟨i, i + 1, cs "invalid continuation byte"⟩
    else .error ⟨i, i + 1, cs "invalid start byte"⟩

/-- Strict UTF-8 decoding of a whole byte string. -/
def utf8Decode (bs : List Nat) : Except UDecErr (List Char) := utf8DecodeLoop 0 bs

/-- Modelled from the spec: `pyramid.compat.decode_path_info` — the WSGI
`PATH_INFO` native string is re-encoded to its bytes (latin-1) and decoded
as UTF-8; the input is modelled directly as that byte sequence. -/
def decode_path_info (bs : List Nat) : Except UDecErr (List Char) := utf8Decode bs

/-- Modelled from the spec: percent-decoding of a byte string exactly like
a PEP 3333 server (`pyramid.compat.unquote_bytes_to_wsgi`); an invalid
escape is passed through literally. -/
def percentDecode : List Nat → List Nat
  | [] => []
  | b :: h1 :: h2 :: rest' =>
    if b = 37 ∧ (isHexB h1 && isHexB h2) = true then
      (hexVal h1 * 16 + hexVal h2) :: percentDecode rest'
    else b :: percentDecode (h1 :: h2 :: rest')
  | b :: rest => b :: percentDecode rest

/-- Percent-encode a single byte: bytes that are alphanumeric or in the
safe set pass through, every other byte becomes `%XY`. -/
def percentEncodeByte (safeB : List Nat) (b : Nat) : List Nat :=
  if isAlnumByte b || safeB.contains b then [b]
  else [37, hexDigitU (b / 16), hexDigitU (b % 16)]

/-- Percent-encode a byte string. -/
def percentEncodeBytes (bs : List Nat) (safeB : List Nat) : List Nat :=
  (bs.map (percentEncodeByte safeB)).flatten

/-- Modelled from the spec: `pyramid.encode.url_quote` — UTF-8-encode the
text, then percent-encode every byte not alphanumeric and not in `safe`
(spec section 4.1 `encodeSegment`). -/
def url_quote (s : List Char) (safe : List Char) : List Char :=
  (percentEncodeBytes (utf8Encode s) (safe.map Char.toNat)).map Char.ofNat

/-- Python values that can occur as a path-tuple segment in the model:
text, or a non-text hashable value (an integer) exercising the coercion
branch of `quote_path_segment`.  (`bytes` segments occur in no claim and
are not modelled.) -/
inductive PyVal where
  | str (s : List Char)
  | intVal (n : Int)
deriving DecidableEq

/-- Python's `str()` on a modelled value; on integers this is the decimal
representation. -/
def pyStr : PyVal → List Char
  | .str s => s
  | .intVal n => (toString n).data

/-- `quote_path_segment` (source lines 551-594): a value whose class is not
`str`/`bytes` is first coerced with `str()`, then the (native, UTF-8)
string is URL-quoted.  The module-scope `_segment_cache` is a pure
memoization and is not modelled. -/
def quote_path_segment (v : PyVal) (safe : List Char) : List Char :=
  let segment : List Char :=
    match v with
    | .str s => s
    | _ => pyStr v
  url_quote segment safe

/-- `'/'.join` on a list of already-joined pieces. -/
def joinSep {α : Type} (sep : List α) : List (List α) → List α
  | [] => []
  | [x] => x
  | x :: xs => x ++ sep ++ joinSep sep xs

/-- `_join_path_tuple` (source lines 767-769):
`tuple and '/'.join([quote_path_segment(x) for x in tuple]) or '/'`.
Python's `and`/`or` chain means: an empty tuple yields `"/"`, and a
non-empty tuple whose joined-quoted form is the empty string (falsy)
also yields `"/"`.  The `lru_cache` is pure memoization, not modelled. -/
def _join_path_tuple (t : List PyVal) : List Char :=
  if t = [] then ['/']
  else
    let j := joinSep ['/'] (t.map (fun v => quote_path_segment v PATH_SEGMENT_SAFE))
    if j = [] then ['/'] else j

/-- The errors surfaced by the modelled entry points: `URLDecodeError`
(with encoding name, input object, offending byte range and reason),
`UnicodeEncodeError` from the ASCII coercion of path strings, and the
`KeyError` of `find_resource`. -/
inductive PyErr where
  | urlDecode (encoding : List Char) (object : List Nat) (start stop : Nat) (reason : List Char)
  | unicodeEncode
  | keyError (viewName : List Char)
deriving DecidableEq

/-- `traversal_path_info` (source lines 453-528): decode the WSGI path to
text, translating a `UnicodeDecodeError` into a `URLDecodeError` with the
same data, then split.  The `lru_cache` is pure memoization, not
modelled. -/
def traversal_path_info (path : List Nat) : Except PyErr (List (List Char)) :=
  match decode_path_info path with
  | .error e => .error (.urlDecode (cs "utf-8") path e.start e.stop e.reason)
  | .ok s => .ok (split_path_info s)

/-- Does the text consist of ASCII characters only? -/
def allAscii (s : List Char) : Bool := s.all (fun c => c.toNat < 128)

/-- `traversal_path` (source lines 434-450): require an ASCII-encodable
string (otherwise a `UnicodeEncodeError`), percent-unquote it like a
PEP 3333 server, and delegate to `traversal_path_info`. -/
def traversal_path (p : List Char) : Except PyErr (List (List Char)) :=
  if allAscii p then traversal_path_info (percentDecode (p.map Char.toNat))
  else .error .unicodeEncode

inductive Node where
  | mk (name : Option (List Char)) (childTbl : Option (List (List Char × Node)))

/-- The `__name__` attribute. -/
def Node.name : Node → Option (List Char)
  | .mk n _ => n

/-- The `__getitem__` capability: `none` when the object has no
`__getitem__` attribute at all. -/
def Node.childTbl : Node → Option (List (List Char × Node))
  | .mk _ t => t

/-- Python's `__name__ or ''`. -/
def nameOrEmpty (n : Node) : List Char := n.name.getD []

/-- Dictionary lookup in a child table (`KeyError` modelled as `none`). -/
def assocFind : List (List Char × Node) → List Char → Option Node
  | [], _ => none
  | (k, v) :: rest, key => if k = key then some v else assocFind rest key

/-- The dictionary returned by `ResourceTreeTraverser.__call__`
(source lines 676-723). -/
structure TravRecord where
  context : Node
  view_name : List Char
  subpath : List (List Char)
  traversed : List (List Char)
  virtual_root : Node
  virtual_root_path : List (List Char)
  root : Node

/-- The traversal loop of `ResourceTreeTraverser.__call__` (source lines
671-713): `ob`/`vroot`/`i` are the mutable loop state, the final argument
the remaining segments of `vpath_tuple` (the source iterates
`for segment in vpath_tuple` and slices `vpath_tuple` by `i`). -/
def travLoop (root : Node) (vrt vpt : List (List Char)) (vri : Int)
    (sub0 : List (List Char)) : Node → Node → Nat → List (List Char) → TravRecord
  | ob, vroot, _, [] => ⟨ob, [], sub0, vpt, vroot, vrt, root⟩
  | ob, vroot, i, segment :: rest =>
    if segment.take 2 = ['@', '@'] then
      ⟨ob, segment.drop 2, vpt.drop (i + 1), vpt.take (vri + (i : Int) + 1).toNat,
        vroot, vrt, root⟩
    else
      match ob.childTbl with
      | none =>
        ⟨ob, segment, vpt.drop (i + 1), vpt.take (vri + (i : Int) + 1).toNat,
          vroot, vrt, root⟩
      | some tbl =>
        match assocFind tbl segment with
        | none =>
          ⟨ob, segment, vpt.drop (i + 1), vpt.take (vri + (i : Int) + 1).toNat,
            vroot, vrt, root⟩
        | some next =>
          travLoop root vrt vpt vri sub0 next
            (if (i : Int) = vri then next else vroot) (i + 1) rest

/-- The body of `ResourceTreeTraverser.__call__` after `vpath`,
`vroot_tuple` and `vroot_idx` have been computed (source lines 660-723):
the `vpath == '/'` shortcut, otherwise split and walk. -/
def mgtWalkTop (root : Node) (vrt : List (List Char)) (vpath : List Char)
    (vri : Int) (sub0 : List (List Char)) : TravRecord :=
  if vpath = ['/'] then ⟨root, [], sub0, [], root, vrt, root⟩
  else travLoop root vrt (split_path_info vpath) vri sub0 root root 0
    (split_path_info vpath)

/-- The request state consumed by the traverser: the already-decoded
`PATH_INFO` text and the decoded `HTTP_X_VHM_ROOT` header value when
present.  This models a request that matched no route
(`matchdict is None`, so the caller-supplied `subpath` is `()`). -/
structure Req where
  pathInfo : List Char
  vhRoot : Option (List Char)

/-- `ResourceTreeTraverser.__call__` (source lines 613-723) for a
route-less request: substitute `'/'` for an empty `PATH_INFO`, then, when
the virtual-root header is present, prepend its (decoded) path to the
requested path, take its split as `vroot_tuple` and set
`vroot_idx = len(vroot_tuple) - 1`; without the header `vroot_idx = -1`. -/
def mgtCall (root : Node) (req : Req) : TravRecord :=
  let path := if req.pathInfo = [] then ['/'] else req.pathInfo
  match req.vhRoot with
  | some h =>
    mgtWalkTop root (split_path_info h) (h ++ path)
      ((split_path_info h).length - 1) []
  | none => mgtWalkTop root [] path (-1) []

/-- A location-aware resource position: the physical root of its tree and
the chain of nodes walked down from the root (empty when the resource is
the root itself).  `lineage` of the resource is this chain reversed, with
the resource first and the root last; the unique lineage member whose
`__parent__` is `None` is the chain head `root`. -/
structure Loc where
  root : Node
  descend : List Node

/-- Last node of a downward chain. -/
def lastNode (n : Node) : List Node → Node
  | [] => n
  | m :: rest => lastNode m rest

/-- The resource `Node` a `Loc` denotes. -/
def Loc.node (loc : Loc) : Node := lastNode loc.root loc.descend

/-- Modelled from the spec: `pyramid.location.lineage` — the resource,
its parent, and so on up to the root.  In the `Loc` representation this
is the reversed downward chain. -/
def Loc.lineageList (loc : Loc) : List Node := (loc.root :: loc.descend).reverse

/-- `find_root` (source lines 31-41): walk `lineage` until the location
whose `__parent__` is `None` — in the `Loc` representation that last
lineage member is the chain head. -/
def find_root (loc : Loc) : Node := loc.root

/-- `_resource_path_list` (source lines 377-383):
`[loc.__name__ or '' for loc in lineage(resource)]`, reversed, with the
extra elements appended.  The names become path-tuple values. -/
def _resource_path_list (loc : Loc) (elements : List PyVal) : List PyVal :=
  ((loc.lineageList.map (fun n => PyVal.str (nameOrEmpty n))).reverse) ++ elements

/-- `resource_path_tuple` (source lines 333-371). -/
def resource_path_tuple (loc : Loc) (elements : List PyVal) : List PyVal :=
  _resource_path_list loc elements

/-- `resource_path` (source lines 125-168): join the path tuple. -/
def resource_path (loc : Loc) (elements : List PyVal) : List Char :=
  _join_path_tuple (resource_path_tuple loc elements)

/-- The `path` argument of `traverse`/`find_resource`: a string or a
tuple. -/
inductive TravPath where
  | str (s : List Char)
  | tup (t : List PyVal)

namespace Pyramid

/-- `traverse` (source lines 174-330) for the default traverser: a tuple
argument is joined into a string; the string must be ASCII-encodable
(`ascii_native_`, else `UnicodeEncodeError`); an absolute path re-roots
at `find_root`.  The WebOb request built by `traverse` is modelled from
the spec: its `path_info` is the percent-unquoted byte string decoded as
UTF-8 (PEP 3333), and a `UnicodeDecodeError` there surfaces as
`URLDecodeError` (source lines 642-645).  No virtual-root header is
present on a request built by `traverse`.  (Declared in a namespace
because the bare name collides with a library function.) -/
def traverse (loc : Loc) (p : TravPath) : Except PyErr TravRecord :=
  let path : List Char :=
    match p with
    | .str s => s
    | .tup t => if t = [] then [] else _join_path_tuple t
  if allAscii path then
    let start := if path.head? = some '/' then find_root loc else loc.node
    match decode_path_info (percentDecode (path.map Char.toNat)) with
    | .error e =>
      .error (.urlDecode (cs "utf-8") (percentDecode (path.map Char.toNat))
        e.start e.stop e.reason)
    | .ok pathInfo => .ok (mgtCall start ⟨pathInfo, none⟩)
  else .error .unicodeEncode

end Pyramid

/-- `find_resource` (source lines 44-100): traverse, then raise `KeyError`
when a non-empty `view_name` is left over, else return the context. -/
def find_resource (loc : Loc) (p : TravPath) : Except PyErr Node :=
  match Pyramid.traverse loc p with
  | .error e => .error e
  | .ok d => if d.view_name ≠ [] then .error (.keyError d.view_name) else .ok d.context

/-- Trailing-slash strip, Python's `rstrip('/')`. -/
def rstripSlashes (p : List Char) : List Char :=
  (p.reverse.dropWhile (· = '/')).reverse

/-- The `IResourceURL` attributes computed by `ResourceURL.__init__`
(source lines 731-764). -/
structure RURL where
  virtual_path : List Char
  physical_path : List Char
  virtual_path_tuple : List PyVal
  physical_path_tuple : List PyVal

/-- `ResourceURL.__init__` (source lines 735-764): join the resource's
path tuple; unless the tuple is exactly `('',)` append a trailing empty
segment / slash; when the virtual-root header is present and its
(rstripped) path prefixes the physical path, trim that prefix from the
virtual path and tuple. -/
def ResourceURL_init (loc : Loc) (vhRootHeader : Option (List Char)) : RURL :=
  let ppt0 := resource_path_tuple loc []
  let pp0 := _join_path_tuple ppt0
  let ppt := if ppt0 ≠ [PyVal.str []] then ppt0 ++ [PyVal.str []] else ppt0
  let pp := if ppt0 ≠ [PyVal.str []] then pp0 ++ ['/'] else pp0
  match vhRootHeader with
  | none => ⟨pp, pp, ppt, ppt⟩
  | some vr0 =>
    let vr := rstripSlashes vr0
    if vr ≠ [] ∧ vr.isPrefixOf pp then
      let numels := (splitOnSlash vr).length
      ⟨pp.drop vr.length, pp, PyVal.str [] :: ppt.drop numels, ppt⟩
    else ⟨pp, pp, ppt, ppt⟩

/-- The byte values of the default safe set. -/
def segSafeB : List Nat := PATH_SEGMENT_SAFE.map Char.toNat

/-- Prepend a decoded text to a decode result, propagating failure. -/
def consText (s : List Char) (r : Except UDecErr (List Char)) :
    Except UDecErr (List Char) :=
  match r with
  | .error e => .error e
  | .ok t => .ok (s ++ t)

/-- The percent-encoded UTF-8 bytes of a segment under the default safe
set (`quote_path_segment` of a text, at byte level). -/
def quoteB (s : List Char) : List Nat := percentEncodeBytes (utf8Encode s) segSafeB

/-- A segment the cleaning loop keeps unchanged (claim C3's notion of a
never-occurring entry). -/
def cleanSegBasic (s : List Char) : Prop := s ≠ [] ∧ s ≠ ['.'] ∧ s ≠ ['.', '.']

/-- A resource name that survives the whole string round-trip: clean in
the C3 sense, containing no separator, and not starting with the view
selector marker. -/
def cleanSegName (s : List Char) : Prop :=
  cleanSegBasic s ∧ '/' ∉ s ∧ s.take 2 ≠ ['@', '@']

/-- A node found by its parent under its own `__name__ or ''`: the
lookup coherence that makes a tree location-aware. -/
def childOfNode (p c : Node) : Prop :=
  ∃ tbl, p.childTbl = some tbl ∧ assocFind tbl (nameOrEmpty c) = some c

/-- The downward chain of a `Loc` is coherent: each node is found by its
parent under its own name. -/
def wfDown : Node → List Node → Prop
  | _, [] => True
  | p, c :: cst => childOfNode p c ∧ wfDown c cst

/-- Pure child-lookup walk (no view-selector handling): the node reached
by following the given segments. -/
def walkTo (ob : Node) : List (List Char) → Option Node
  | [] => some ob
  | seg :: rest =>
    match ob.childTbl with
    | none => none
    | some tbl =>
      match assocFind tbl seg with
      | none => none
      | some nx => walkTo nx rest

/-- `quote_path_segment` of a text under the default safe set, as text. -/
def quoteChars (s : List Char) : List Char := (quoteB s).map Char.ofNat

/-- A leaf named `@@x`: a name that is "clean" in claim C1's sense but
collides with the view-selector marker. -/
def cxAt : Node := .mk (some (cs "@@x")) none

/-- Root holding the `@@x` leaf. -/
def cxRootAt : Node := .mk none (some [(cs "@@x", cxAt)])

/-- The `@@x` leaf as a location-aware resource. -/
def locAt : Loc := ⟨cxRootAt, [cxAt]⟩

/-- A root with a `__getitem__` capability but no entries. -/
def rootEmptyLookup : Node := .mk none (some [])

/-- The empty-lookup root as a resource. -/
def locEmptyLookup : Loc := ⟨rootEmptyLookup, []⟩

/-- A leaf named `a` with no lookup capability. -/
def nodeA : Node := .mk (some (cs "a")) none

/-- Root holding the `a` leaf. -/
def rootWithA : Node := .mk none (some [(cs "a", nodeA)])

/-- The root of the `a` tree as a resource. -/
def locRootA : Loc := ⟨rootWithA, []⟩

/-- The `a` leaf as a location-aware resource. -/
def locA : Loc := ⟨rootWithA, [nodeA]⟩

/-- Virtual-root fixture: the `page` leaf. -/
def c8page : Node := .mk (some (cs "page")) none

/-- Virtual-root fixture: the inner `root` node at `/vh/root`. -/
def c8r2 : Node := .mk (some (cs "root")) (some [(cs "page", c8page)])

/-- Virtual-root fixture: the `vh` node. -/
def c8vh : Node := .mk (some (cs "vh")) (some [(cs "root", c8r2)])

/-- Virtual-root fixture: the physical root. -/
def c8root : Node := .mk none (some [(cs "vh", c8vh)])

/-! ## Lemmas and claim theorems -/

theorem splitOnSlash_ne_nil (l : List Char) : splitOnSlash l ≠ [] := by
  cases l with
  | nil => simp [splitOnSlash]
  | cons c rest =>
    simp only [splitOnSlash]
    split
    · simp
    · split <;> simp

theorem splitOnSlash_cons_slash (s : List Char) :
    splitOnSlash ('/' :: s) = [] :: splitOnSlash s := by
  simp [splitOnSlash]

theorem cleanStep_nil (acc : List (List Char)) : cleanStep acc [] = acc := by
  simp [cleanStep]

theorem foldl_cleanStep_nil_cons (acc : List (List Char)) (rest : List (List Char)) :
    List.foldl cleanStep acc ([] :: rest) = List.foldl cleanStep acc rest := by
  simp [List.foldl, cleanStep_nil]

theorem splitOnSlash_append_slash (s : List Char) :
    splitOnSlash (s ++ ['/']) = splitOnSlash s ++ [[]] := by
  induction s with
  | nil => simp [splitOnSlash]
  | cons c rest ih =>
    by_cases hc : c = '/'
    · subst hc
      simp only [List.cons_append, splitOnSlash_cons_slash, ih, List.cons_append]
    · simp only [List.cons_append, splitOnSlash, if_neg hc, List.append_eq]
      rw [ih]
      rcases h : splitOnSlash rest with _ | ⟨t, ts⟩
      · exact absurd h (splitOnSlash_ne_nil rest)
      · simp

theorem foldl_cleanStep_append_nil (acc : List (List Char)) (xs : List (List Char)) :
    List.foldl cleanStep acc (xs ++ [[]]) = List.foldl cleanStep acc xs := by
  rw [List.foldl_append]
  simp [List.foldl, cleanStep_nil]

/-- Removing all leading slashes does not change the cleaned split. -/
theorem clean_split_dropWhile (p : List Char) (acc : List (List Char)) :
    List.foldl cleanStep acc (splitOnSlash (p.dropWhile (· = '/'))) =
      List.foldl cleanStep acc (splitOnSlash p) := by
  induction p with
  | nil => rfl
  | cons c rest ih =>
    by_cases hc : c = '/'
    · subst hc
      rw [List.dropWhile_cons_of_pos (by simp), ih, splitOnSlash_cons_slash,
        foldl_cleanStep_nil_cons]
    · rw [List.dropWhile_cons_of_neg (by simpa using hc)]

/-- Removing all trailing slashes does not change the cleaned split.
Stated via `reverse` so that the induction runs over the reversed list. -/
theorem clean_split_rstrip (t : List Char) (acc : List (List Char)) :
    List.foldl cleanStep acc (splitOnSlash (t.dropWhile (· = '/')).reverse) =
      List.foldl cleanStep acc (splitOnSlash t.reverse) := by
  induction t with
  | nil => rfl
  | cons c rest ih =>
    by_cases hc : c = '/'
    · subst hc
      rw [List.dropWhile_cons_of_pos (by simp), ih, List.reverse_cons,
        splitOnSlash_append_slash, foldl_cleanStep_append_nil]
    · rw [List.dropWhile_cons_of_neg (by simpa using hc)]

/-- The two end-strips in `split_path_info` are invisible to the cleaning
loop: `split_path_info` is the cleaned plain split. -/
theorem split_path_info_eq_clean_split (p : List Char) :
    split_path_info p = cleanSegments (splitOnSlash p) := by
  unfold split_path_info stripSlashes cleanSegments
  rw [clean_split_rstrip (p.dropWhile (· = '/')).reverse []]
  rw [List.reverse_reverse, clean_split_dropWhile]

theorem dropOneLeadingSlash_cons_slash (rest : List Char) :
    dropOneLeadingSlash ('/' :: rest) = rest := by
  simp [dropOneLeadingSlash]

theorem dropOneLeadingSlash_cons_ne (c : Char) (rest : List Char) (hc : c ≠ '/') :
    dropOneLeadingSlash (c :: rest) = c :: rest := by
  simp [dropOneLeadingSlash, hc]

theorem dropOneLeading_clean_split (p : List Char) :
    cleanSegments (splitOnSlash (dropOneLeadingSlash p)) =
      cleanSegments (splitOnSlash p) := by
  unfold cleanSegments
  match p with
  | [] => rfl
  | c :: rest =>
    by_cases hc : c = '/'
    · subst hc
      rw [dropOneLeadingSlash_cons_slash, splitOnSlash_cons_slash,
        foldl_cleanStep_nil_cons]
    · rw [dropOneLeadingSlash_cons_ne c rest hc]

theorem dropOneTrailing_clean_split (p : List Char) :
    cleanSegments (splitOnSlash (dropOneTrailingSlash p)) =
      cleanSegments (splitOnSlash p) := by
  unfold dropOneTrailingSlash
  match h : p.reverse with
  | [] =>
    have : p = [] := by simpa using congrArg List.reverse h
    subst this
    rfl
  | c :: rest =>
    by_cases hc : c = '/'
    · subst hc
      have hp : p = rest.reverse ++ ['/'] := by
        have := congrArg List.reverse h
        simpa using this
      rw [dropOneLeadingSlash_cons_slash, hp]
      unfold cleanSegments
      rw [splitOnSlash_append_slash, foldl_cleanStep_append_nil]
    · rw [dropOneLeadingSlash_cons_ne c rest hc, ← h, List.reverse_reverse]

theorem charOfNat_toNat (c : Char) : Char.ofNat c.toNat = c := by
  have hv : c.toNat.isValidChar := c.valid
  unfold Char.ofNat
  rw [dif_pos hv]
  unfold Char.ofNatAux
  apply Char.ext
  apply UInt32.ext
  simp [Char.toNat, UInt32.ofNat', UInt32.toNat]

theorem charToNat_ofNat (b : Nat) (h : b < 55296) : (Char.ofNat b).toNat = b := by
  have hv : b.isValidChar := Or.inl h
  unfold Char.ofNat
  rw [dif_pos hv]
  unfold Char.ofNatAux
  simp [Char.toNat, UInt32.ofNat', UInt32.toNat]

theorem char_toNat_valid (c : Char) :
    c.toNat < 55296 ∨ (57344 ≤ c.toNat ∧ c.toNat < 1114112) := c.valid

set_option maxRecDepth 4000 in
theorem hex_rt : ∀ b < 256,
    isHexB (hexDigitU (b / 16)) = true ∧ isHexB (hexDigitU (b % 16)) = true ∧
      hexVal (hexDigitU (b / 16)) * 16 + hexVal (hexDigitU (b % 16)) = b := by
  decide

set_option maxRecDepth 4000 in
theorem allowed_byte_facts : ∀ b < 256,
    (isAlnumByte b || segSafeB.contains b) = true → b < 128 ∧ b ≠ 37 := by
  decide

theorem utf8EncodeCp_lt_256 (n : Nat) (h : n < 1114112) :
    ∀ x ∈ utf8EncodeCp n, x < 256 := by
  intro x hx
  unfold utf8EncodeCp at hx
  split at hx
  · simp at hx
    omega
  · split at hx
    · simp at hx
      rcases hx with h1 | h1 <;> omega
    · split at hx
      · simp at hx
        rcases hx with h1 | h1 | h1 <;> omega
      · simp at hx
        rcases hx with h1 | h1 | h1 | h1 <;> omega

theorem utf8EncodeChar_lt_256 (c : Char) : ∀ x ∈ utf8EncodeChar c, x < 256 := by
  have := char_toNat_valid c
  exact utf8EncodeCp_lt_256 c.toNat (by omega)

theorem utf8Encode_lt_256 (s : List Char) : ∀ x ∈ utf8Encode s, x < 256 := by
  intro x hx
  unfold utf8Encode at hx
  rw [List.mem_flatten] at hx
  rcases hx with ⟨l, hl, hxl⟩
  rw [List.mem_map] at hl
  rcases hl with ⟨c, _, rfl⟩
  exact utf8EncodeChar_lt_256 c x hxl

theorem percentEncodeByte_lt_128 (b : Nat) (h : b < 256) :
    ∀ x ∈ percentEncodeByte segSafeB b, x < 128 := by
  intro x hx
  unfold percentEncodeByte at hx
  split at hx
  · next hal =>
    simp at hx
    have := (allowed_byte_facts b h hal).1
    omega
  · simp at hx
    have h1 := (hex_rt b h).1
    have h2 := (hex_rt b h).2.1
    rcases hx with rfl | rfl | rfl
    · omega
    · unfold isHexB at h1
      simp [hexDigitU] at h1 ⊢
      split <;> omega
    · unfold isHexB at h2
      simp [hexDigitU] at h2 ⊢
      split <;> omega

theorem percentDecode_cons_ne37 (b : Nat) (rest : List Nat) (hb : b ≠ 37) :
    percentDecode (b :: rest) = b :: percentDecode rest := by
  match rest with
  | [] => rfl
  | [h1] => rfl
  | h1 :: h2 :: r =>
    have hc : ¬(b = 37 ∧ (isHexB h1 && isHexB h2) = true) := fun h => hb h.1
    simp only [percentDecode, if_neg hc]

theorem percentDecode_37_hex (h1 h2 : Nat) (r : List Nat)
    (hh : (isHexB h1 && isHexB h2) = true) :
    percentDecode (37 :: h1 :: h2 :: r) =
      (hexVal h1 * 16 + hexVal h2) :: percentDecode r := by
  have hc : (37 : Nat) = 37 ∧ (isHexB h1 && isHexB h2) = true := ⟨rfl, hh⟩
  simp only [percentDecode, if_pos hc, hh, true_and, if_true]

theorem percentDecode_chunk (b : Nat) (h : b < 256) (tail : List Nat) :
    percentDecode (percentEncodeByte segSafeB b ++ tail) = b :: percentDecode tail := by
  unfold percentEncodeByte
  split
  · next hal =>
    have hb := allowed_byte_facts b h hal
    simpa using percentDecode_cons_ne37 b tail hb.2
  · obtain ⟨hh1, hh2, hval⟩ := hex_rt b h
    simp only [List.cons_append, List.nil_append]
    rw [percentDecode_37_hex _ _ _ (by simp [hh1, hh2]), hval]

theorem percentEncodeBytes_cons (b : Nat) (rest : List Nat) (safeB : List Nat) :
    percentEncodeBytes (b :: rest) safeB =
      percentEncodeByte safeB b ++ percentEncodeBytes rest safeB := by
  simp [percentEncodeBytes]

theorem percentDecode_encodeBytes (bs : List Nat) (h : ∀ b ∈ bs, b < 256)
    (tail : List Nat) :
    percentDecode (percentEncodeBytes bs segSafeB ++ tail) = bs ++ percentDecode tail := by
  induction bs with
  | nil => simp [percentEncodeBytes]
  | cons b rest ih =>
    have hb : b < 256 := h b (by simp)
    have hrest : ∀ x ∈ rest, x < 256 := fun x hx => h x (by simp [hx])
    rw [percentEncodeBytes_cons, List.append_assoc, percentDecode_chunk b hb,
      ih hrest]
    rfl

theorem utf8_decode_one (b : Nat) (i : Nat) (tail : List Nat) (h : b < 128) :
    utf8DecodeLoop i (b :: tail) =
      consChar (Char.ofNat b) (utf8DecodeLoop (i + 1) tail) := by
  rw [utf8DecodeLoop.eq_def]
  dsimp only
  rw [if_pos h]

theorem utf8_decode_two (n i : Nat) (tail : List Nat) (h1 : 128 ≤ n) (h2 : n < 2048) :
    utf8DecodeLoop i ((192 + n / 64) :: (128 + n % 64) :: tail) =
      consChar (Char.ofNat n) (utf8DecodeLoop (i + 2) tail) := by
  rw [utf8DecodeLoop.eq_def]
  dsimp only
  rw [if_neg (by omega), if_neg (by omega), if_pos (by omega)]
  have hc : contOk (128 + n % 64) = true := by
    unfold contOk
    simp
    omega
  rw [if_pos hc]
  have hcp : (192 + n / 64 - 192) * 64 + (128 + n % 64 - 128) = n := by omega
  rw [hcp]

theorem utf8_decode_three (n i : Nat) (tail : List Nat) (h1 : 2048 ≤ n)
    (h2 : n < 65536) (h3 : ¬(55296 ≤ n ∧ n < 57344)) :
    utf8DecodeLoop i
        ((224 + n / 4096) :: (128 + n / 64 % 64) :: (128 + n % 64) :: tail) =
      consChar (Char.ofNat n) (utf8DecodeLoop (i + 3) tail) := by
  rw [utf8DecodeLoop.eq_def]
  dsimp only
  rw [if_neg (by omega), if_neg (by omega), if_neg (by omega), if_pos (by omega)]
  have hcond : (if 224 + n / 4096 = 224 then
      160 ≤ 128 + n / 64 % 64 && 128 + n / 64 % 64 < 192
    else if 224 + n / 4096 = 237 then
      128 ≤ 128 + n / 64 % 64 && 128 + n / 64 % 64 < 160
    else contOk (128 + n / 64 % 64)) = true := by
    by_cases hn1 : n < 4096
    · rw [if_pos (by omega)]
      simp
      omega
    · by_cases hn2 : 53248 ≤ n ∧ n < 57344
      · rw [if_neg (by omega), if_pos (by omega)]
        simp
        omega
      · rw [if_neg (by omega), if_neg (by omega)]
        unfold contOk
        simp
        omega
  rw [if_pos hcond]
  have hc2 : contOk (128 + n % 64) = true := by
    unfold contOk
    simp
    omega
  rw [if_pos hc2]
  have hcp : (224 + n / 4096 - 224) * 4096 + (128 + n / 64 % 64 - 128) * 64 +
      (128 + n % 64 - 128) = n := by omega
  rw [hcp]

theorem utf8_decode_four (n i : Nat) (tail : List Nat) (h1 : 65536 ≤ n)
    (h2 : n < 1114112) :
    utf8DecodeLoop i
        ((240 + n / 262144) :: (128 + n / 4096 % 64) :: (128 + n / 64 % 64) ::
          (128 + n % 64) :: tail) =
      consChar (Char.ofNat n) (utf8DecodeLoop (i + 4) tail) := by
  rw [utf8DecodeLoop.eq_def]
  dsimp only
  rw [if_neg (by omega), if_neg (by omega), if_neg (by omega), if_neg (by omega),
    if_pos (by omega)]
  have hcond : (if 240 + n / 262144 = 240 then
      144 ≤ 128 + n / 4096 % 64 && 128 + n / 4096 % 64 < 192
    else if 240 + n / 262144 = 244 then
      128 ≤ 128 + n / 4096 % 64 && 128 + n / 4096 % 64 < 144
    else contOk (128 + n / 4096 % 64)) = true := by
    by_cases hn1 : n < 262144
    · rw [if_pos (by omega)]
      simp
      omega
    · by_cases hn2 : 1048576 ≤ n
      · rw [if_neg (by omega), if_pos (by omega)]
        simp
        omega
      · rw [if_neg (by omega), if_neg (by omega)]
        unfold contOk
        simp
        omega
  rw [if_pos hcond]
  have hc2 : contOk (128 + n / 64 % 64) = true := by
    unfold contOk
    simp
    omega
  have hc3 : contOk (128 + n % 64) = true := by
    unfold contOk
    simp
    omega
  rw [if_pos hc2, if_pos hc3]
  have hcp : (240 + n / 262144 - 240) * 262144 + (128 + n / 4096 % 64 - 128) * 4096 +
      (128 + n / 64 % 64 - 128) * 64 + (128 + n % 64 - 128) = n := by omega
  rw [hcp]

theorem utf8_decode_encodeChar (c : Char) (i : Nat) (tail : List Nat) :
    utf8DecodeLoop i (utf8EncodeChar c ++ tail) =
      consChar c (utf8DecodeLoop (i + (utf8EncodeChar c).length) tail) := by
  have hval := char_toNat_valid c
  unfold utf8EncodeChar utf8EncodeCp
  by_cases hr1 : c.toNat < 128
  · rw [if_pos hr1]
    have h := utf8_decode_one c.toNat i tail hr1
    rw [charOfNat_toNat] at h
    simpa using h
  · by_cases hr2 : c.toNat < 2048
    · rw [if_neg hr1, if_pos hr2]
      have h := utf8_decode_two c.toNat i tail (by omega) hr2
      rw [charOfNat_toNat] at h
      simpa using h
    · by_cases hr3 : c.toNat < 65536
      · rw [if_neg hr1, if_neg hr2, if_pos hr3]
        have h := utf8_decode_three c.toNat i tail (by omega) hr3 (by omega)
        rw [charOfNat_toNat] at h
        simpa using h
      · rw [if_neg hr1, if_neg hr2, if_neg hr3]
        have h := utf8_decode_four c.toNat i tail (by omega) (by omega)
        rw [charOfNat_toNat] at h
        simpa using h

theorem utf8Encode_cons (c : Char) (rest : List Char) :
    utf8Encode (c :: rest) = utf8EncodeChar c ++ utf8Encode rest := by
  simp [utf8Encode]

theorem consText_nil (r : Except UDecErr (List Char)) : consText [] r = r := by
  cases r <;> rfl

theorem consText_cons (c : Char) (s : List Char) (r : Except UDecErr (List Char)) :
    consText (c :: s) r = consChar c (consText s r) := by
  cases r <;> rfl

theorem utf8_decode_encode (s : List Char) (i : Nat) (tail : List Nat) :
    utf8DecodeLoop i (utf8Encode s ++ tail) =
      consText s (utf8DecodeLoop (i + (utf8Encode s).length) tail) := by
  induction s generalizing i with
  | nil =>
    simp only [utf8Encode, List.map_nil, List.flatten_nil, List.nil_append,
      List.length_nil, Nat.add_zero, consText_nil]
  | cons c rest ih =>
    rw [utf8Encode_cons, List.append_assoc, utf8_decode_encodeChar, ih,
      consText_cons, List.length_append, ← Nat.add_assoc]

theorem quoteB_lt_128 (s : List Char) : ∀ b ∈ quoteB s, b < 128 := by
  intro b hb
  unfold quoteB percentEncodeBytes at hb
  rw [List.mem_flatten] at hb
  rcases hb with ⟨l, hl, hbl⟩
  rw [List.mem_map] at hl
  rcases hl with ⟨x, hx, rfl⟩
  exact percentEncodeByte_lt_128 x (utf8Encode_lt_256 s x hx) b hbl

theorem quote_path_segment_str (s : List Char) :
    quote_path_segment (PyVal.str s) PATH_SEGMENT_SAFE = (quoteB s).map Char.ofNat := rfl

theorem map_toNat_ofNat (bs : List Nat) (h : ∀ b ∈ bs, b < 128) :
    (bs.map Char.ofNat).map Char.toNat = bs := by
  induction bs with
  | nil => rfl
  | cons b rest ih =>
    simp only [List.map_cons, List.cons.injEq]
    exact ⟨charToNat_ofNat b (by have := h b (by simp); omega),
      ih fun x hx => h x (by simp [hx])⟩

theorem allAscii_map_ofNat (bs : List Nat) (h : ∀ b ∈ bs, b < 128) :
    allAscii (bs.map Char.ofNat) = true := by
  unfold allAscii
  rw [List.all_eq_true]
  intro c hc
  rw [List.mem_map] at hc
  rcases hc with ⟨b, hb, rfl⟩
  have hb' := h b hb
  simp [charToNat_ofNat b (by omega), hb']

theorem joinSep_cons_cons {α : Type} (sep x y : List α) (rest : List (List α)) :
    joinSep sep (x :: y :: rest) = x ++ sep ++ joinSep sep (y :: rest) := rfl

theorem map_joinSep {α β : Type} (f : α → β) (sep : List α) (xs : List (List α)) :
    List.map f (joinSep sep xs) = joinSep (List.map f sep) (xs.map (List.map f)) := by
  induction xs with
  | nil => rfl
  | cons x rest ih =>
    cases rest with
    | nil => rfl
    | cons y t =>
      rw [joinSep_cons_cons, List.map_append, List.map_append, ih]
      rfl

theorem percentDecode_nil : percentDecode [] = [] := by
  rw [percentDecode.eq_def]

theorem utf8DecodeLoop_nil (i : Nat) : utf8DecodeLoop i [] = .ok [] := by
  rw [utf8DecodeLoop.eq_def]

theorem percentDecode_quoteB_append (s : List Char) (tail : List Nat) :
    percentDecode (quoteB s ++ tail) = utf8Encode s ++ percentDecode tail := by
  unfold quoteB
  exact percentDecode_encodeBytes (utf8Encode s) (utf8Encode_lt_256 s) tail

theorem percentDecode_joinSep_quoteB (segs : List (List Char)) :
    percentDecode (joinSep [47] (segs.map quoteB)) =
      joinSep [47] (segs.map utf8Encode) := by
  induction segs with
  | nil => exact percentDecode_nil
  | cons x rest ih =>
    cases rest with
    | nil =>
      show percentDecode (quoteB x) = utf8Encode x
      have := percentDecode_quoteB_append x []
      simpa [percentDecode_nil] using this
    | cons y t =>
      simp only [List.map_cons] at ih ⊢
      rw [joinSep_cons_cons, joinSep_cons_cons, List.append_assoc]
      show percentDecode (quoteB x ++ (47 :: joinSep [47] (quoteB y :: List.map quoteB t))) = _
      rw [percentDecode_quoteB_append, percentDecode_cons_ne37 47 _ (by omega), ih]
      simp [List.append_assoc]

theorem utf8_decode_joinSep (segs : List (List Char)) (i : Nat) :
    utf8DecodeLoop i (joinSep [47] (segs.map utf8Encode)) =
      .ok (joinSep ['/'] segs) := by
  induction segs generalizing i with
  | nil => exact utf8DecodeLoop_nil i
  | cons x rest ih =>
    cases rest with
    | nil =>
      show utf8DecodeLoop i (utf8Encode x) = .ok x
      have := utf8_decode_encode x i []
      simpa [utf8DecodeLoop_nil, consText] using this
    | cons y t =>
      simp only [List.map_cons] at ih ⊢
      rw [joinSep_cons_cons, List.append_assoc]
      show utf8DecodeLoop i (utf8Encode x ++ (47 :: joinSep [47] (utf8Encode y :: List.map utf8Encode t))) = _
      rw [utf8_decode_encode, utf8_decode_one 47 _ _ (by omega), ih]
      have h47 : Char.ofNat 47 = '/' := rfl
      rw [h47]
      simp [consText, consChar, joinSep_cons_cons, List.append_assoc]

theorem splitOnSlash_noslash (s : List Char) (h : '/' ∉ s) : splitOnSlash s = [s] := by
  induction s with
  | nil => rfl
  | cons c rest ih =>
    have hc : c ≠ '/' := fun hc => h (by simp [hc])
    have hr : '/' ∉ rest := fun hr => h (by simp [hr])
    unfold splitOnSlash
    rw [if_neg hc, ih hr]

theorem splitOnSlash_cons_ne (c : Char) (rest : List Char) (hc : c ≠ '/') :
    splitOnSlash (c :: rest) =
      match splitOnSlash rest with
      | [] => [[c]]
      | s :: ss => (c :: s) :: ss := by
  rw [splitOnSlash.eq_def]
  dsimp only
  rw [if_neg hc]

theorem splitOnSlash_seg_append (s : List Char) (r : List Char) (h : '/' ∉ s) :
    splitOnSlash (s ++ '/' :: r) = s :: splitOnSlash r := by
  induction s with
  | nil => simp [splitOnSlash_cons_slash]
  | cons c rest ih =>
    have hc : c ≠ '/' := fun hc => h (by simp [hc])
    have hr : '/' ∉ rest := fun hr => h (by simp [hr])
    simp only [List.cons_append]
    rw [splitOnSlash_cons_ne c _ hc, ih hr]

theorem splitOnSlash_joinSep (segs : List (List Char)) (hne : segs ≠ [])
    (h : ∀ s ∈ segs, '/' ∉ s) :
    splitOnSlash (joinSep ['/'] segs) = segs := by
  induction segs with
  | nil => exact absurd rfl hne
  | cons x rest ih =>
    cases rest with
    | nil => exact splitOnSlash_noslash x (h x (by simp))
    | cons y t =>
      rw [joinSep_cons_cons, List.append_assoc]
      show splitOnSlash (x ++ '/' :: joinSep ['/'] (y :: t)) = _
      rw [splitOnSlash_seg_append x _ (h x (by simp)),
        ih (by simp) (fun s hs => h s (by simp [hs]))]

theorem foldl_cleanStep_clean (segs : List (List Char))
    (h : ∀ s ∈ segs, cleanSegBasic s) (acc : List (List Char)) :
    List.foldl cleanStep acc segs = acc ++ segs := by
  induction segs generalizing acc with
  | nil => simp
  | cons x rest ih =>
    obtain ⟨h1, h2, h3⟩ := h x (by simp)
    have hstep : cleanStep acc x = acc ++ [x] := by
      unfold cleanStep
      rw [if_neg (by simp [h1, h2]), if_neg h3]
    rw [List.foldl_cons, hstep, ih (fun s hs => h s (by simp [hs]))]
    simp

theorem cleanSegments_of_clean (segs : List (List Char))
    (h : ∀ s ∈ segs, cleanSegBasic s) : cleanSegments segs = segs := by
  unfold cleanSegments
  rw [foldl_cleanStep_clean segs h []]
  rfl

theorem mem_of_mem_dropLast {α : Type} (l : List α) (x : α)
    (h : x ∈ l.dropLast) : x ∈ l := by
  induction l with
  | nil => simp at h
  | cons a rest ih =>
    cases rest with
    | nil => simp at h
    | cons b t =>
      rw [List.dropLast_cons₂, List.mem_cons] at h
      rcases h with rfl | h
      · simp
      · have := ih h
        simp [this]

theorem foldl_cleanStep_mem (segs : List (List Char)) (acc : List (List Char))
    (hacc : ∀ s ∈ acc, cleanSegBasic s) :
    ∀ s ∈ List.foldl cleanStep acc segs, cleanSegBasic s := by
  induction segs generalizing acc with
  | nil => simpa using hacc
  | cons x rest ih =>
    rw [List.foldl_cons]
    apply ih
    intro s hs
    unfold cleanStep at hs
    split at hs
    · exact hacc s hs
    · split at hs
      · exact hacc s (mem_of_mem_dropLast acc s hs)
      · rw [List.mem_append] at hs
        rcases hs with hs | hs
        · exact hacc s hs
        · next hne1 hne2 =>
          rw [List.mem_singleton] at hs
          subst hs
          push_neg at hne1
          exact ⟨hne1.1, hne1.2, hne2⟩

theorem split_path_info_mem (p : List Char) :
    ∀ s ∈ split_path_info p, cleanSegBasic s := by
  rw [split_path_info_eq_clean_split]
  exact foldl_cleanStep_mem (splitOnSlash p) [] (by simp)

theorem split_path_info_slash_join (segs : List (List Char)) (hne : segs ≠ [])
    (hclean : ∀ s ∈ segs, cleanSegBasic s) (hnos : ∀ s ∈ segs, '/' ∉ s) :
    split_path_info ('/' :: joinSep ['/'] segs) = segs := by
  rw [split_path_info_eq_clean_split, splitOnSlash_cons_slash,
    splitOnSlash_joinSep segs hne hnos]
  unfold cleanSegments
  rw [foldl_cleanStep_nil_cons]
  exact cleanSegments_of_clean segs hclean

theorem join_sentinel (rest : List PyVal) :
    _join_path_tuple (PyVal.str [] :: rest) =
      '/' :: joinSep ['/'] (rest.map (fun v => quote_path_segment v PATH_SEGMENT_SAFE)) := by
  cases rest with
  | nil => rfl
  | cons v rest' =>
    unfold _join_path_tuple
    rw [if_neg (by simp)]
    dsimp only
    simp only [List.map_cons]
    have hq : quote_path_segment (PyVal.str []) PATH_SEGMENT_SAFE = [] := rfl
    rw [hq, joinSep_cons_cons]
    simp only [List.nil_append]
    rw [if_neg (by simp)]
    rfl

theorem joinSep_ne_nil_head (s : List Char) (rest : List (List Char)) (h : s ≠ []) :
    joinSep ['/'] (s :: rest) ≠ [] := by
  cases rest with
  | nil => exact h
  | cons y t =>
    rw [joinSep_cons_cons]
    simp

theorem mem_joinSep {α : Type} (sep : List α) (xs : List (List α)) (c : α)
    (h : c ∈ joinSep sep xs) : c ∈ sep ∨ ∃ x ∈ xs, c ∈ x := by
  induction xs with
  | nil => simp [joinSep] at h
  | cons x rest ih =>
    cases rest with
    | nil =>
      right
      exact ⟨x, by simp, h⟩
    | cons y t =>
      rw [joinSep_cons_cons, List.append_assoc, List.mem_append] at h
      rcases h with h | h
      · right
        exact ⟨x, by simp, h⟩
      · rw [List.mem_append] at h
        rcases h with h | h
        · exact Or.inl h
        · rcases ih h with h | ⟨z, hz, hcz⟩
          · exact Or.inl h
          · exact Or.inr ⟨z, by simp [hz], hcz⟩

theorem travLoop_nil (root : Node) (vrt vpt : List (List Char)) (vri : Int)
    (sub0 : List (List Char)) (ob vroot : Node) (i : Nat) :
    travLoop root vrt vpt vri sub0 ob vroot i [] =
      ⟨ob, [], sub0, vpt, vroot, vrt, root⟩ := by
  rw [travLoop.eq_def]

theorem travLoop_cons_at (root : Node) (vrt vpt : List (List Char)) (vri : Int)
    (sub0 : List (List Char)) (ob vroot : Node) (i : Nat) (seg : List Char)
    (rest : List (List Char)) (hAt : seg.take 2 = ['@', '@']) :
    travLoop root vrt vpt vri sub0 ob vroot i (seg :: rest) =
      ⟨ob, seg.drop 2, vpt.drop (i + 1), vpt.take (vri + (i : Int) + 1).toNat,
        vroot, vrt, root⟩ := by
  rw [travLoop.eq_def]
  dsimp only
  rw [if_pos hAt]

theorem travLoop_cons_nocap (root : Node) (vrt vpt : List (List Char)) (vri : Int)
    (sub0 : List (List Char)) (ob vroot : Node) (i : Nat) (seg : List Char)
    (rest : List (List Char)) (hAt : ¬seg.take 2 = ['@', '@'])
    (hT : ob.childTbl = none) :
    travLoop root vrt vpt vri sub0 ob vroot i (seg :: rest) =
      ⟨ob, seg, vpt.drop (i + 1), vpt.take (vri + (i : Int) + 1).toNat,
        vroot, vrt, root⟩ := by
  rw [travLoop.eq_def]
  dsimp only
  rw [if_neg hAt, hT]

theorem travLoop_cons_miss (root : Node) (vrt vpt : List (List Char)) (vri : Int)
    (sub0 : List (List Char)) (ob vroot : Node) (i : Nat) (seg : List Char)
    (rest : List (List Char)) (tbl : List (List Char × Node))
    (hAt : ¬seg.take 2 = ['@', '@']) (hT : ob.childTbl = some tbl)
    (hM : assocFind tbl seg = none) :
    travLoop root vrt vpt vri sub0 ob vroot i (seg :: rest) =
      ⟨ob, seg, vpt.drop (i + 1), vpt.take (vri + (i : Int) + 1).toNat,
        vroot, vrt, root⟩ := by
  rw [travLoop.eq_def]
  dsimp only
  rw [if_neg hAt, hT]
  dsimp only
  rw [hM]

theorem travLoop_cons_step (root : Node) (vrt vpt : List (List Char)) (vri : Int)
    (sub0 : List (List Char)) (ob vroot : Node) (i : Nat) (seg : List Char)
    (rest : List (List Char)) (tbl : List (List Char × Node)) (next : Node)
    (hAt : ¬seg.take 2 = ['@', '@']) (hT : ob.childTbl = some tbl)
    (hF : assocFind tbl seg = some next) :
    travLoop root vrt vpt vri sub0 ob vroot i (seg :: rest) =
      travLoop root vrt vpt vri sub0 next
        (if (i : Int) = vri then next else vroot) (i + 1) rest := by
  rw [travLoop.eq_def]
  dsimp only
  rw [if_neg hAt, hT]
  dsimp only
  rw [hF]

theorem travLoop_walk_chain (chain : List Node) :
    ∀ (ob root : Node) (vrt vpt sub0 : List (List Char)) (vroot : Node) (i : Nat),
      wfDown ob chain →
      (∀ n ∈ chain, (nameOrEmpty n).take 2 ≠ ['@', '@']) →
      travLoop root vrt vpt (-1) sub0 ob vroot i (chain.map nameOrEmpty) =
        ⟨lastNode ob chain, [], sub0, vpt, vroot, vrt, root⟩ := by
  induction chain with
  | nil =>
    intro ob root vrt vpt sub0 vroot i _ _
    exact travLoop_nil root vrt vpt (-1) sub0 ob vroot i
  | cons c cst ih =>
    intro ob root vrt vpt sub0 vroot i hwf hat
    obtain ⟨⟨tbl, hT, hF⟩, hwf'⟩ := hwf
    rw [List.map_cons,
      travLoop_cons_step root vrt vpt (-1) sub0 ob vroot i _ _ tbl c
        (hat c (by simp)) hT hF,
      if_neg (by omega), ih c root vrt vpt sub0 vroot (i + 1) hwf'
        (fun n hn => hat n (by simp [hn]))]
    rfl

theorem travLoop_vroot_stay (rest : List (List Char)) :
    ∀ (root : Node) (vrt vpt : List (List Char)) (vri : Int)
      (sub0 : List (List Char)) (ob vroot : Node) (i : Nat),
      vri < (i : Int) →
      (travLoop root vrt vpt vri sub0 ob vroot i rest).virtual_root = vroot := by
  induction rest with
  | nil =>
    intro root vrt vpt vri sub0 ob vroot i _
    rw [travLoop_nil]
  | cons seg rest' ih =>
    intro root vrt vpt vri sub0 ob vroot i hlt
    by_cases hAt : seg.take 2 = ['@', '@']
    · rw [travLoop_cons_at root vrt vpt vri sub0 ob vroot i seg rest' hAt]
    · match hT : ob.childTbl with
      | none =>
        rw [travLoop_cons_nocap root vrt vpt vri sub0 ob vroot i seg rest' hAt hT]
      | some tbl =>
        match hF : assocFind tbl seg with
        | none =>
          rw [travLoop_cons_miss root vrt vpt vri sub0 ob vroot i seg rest' tbl hAt hT hF]
        | some next =>
          rw [travLoop_cons_step root vrt vpt vri sub0 ob vroot i seg rest' tbl next hAt hT hF,
            if_neg (by omega)]
          exact ih root vrt vpt vri sub0 next vroot (i + 1) (by omega)

theorem travLoop_vroot_capture (m : Nat) :
    ∀ (rest : List (List Char)) (root : Node) (vrt vpt : List (List Char))
      (vri : Int) (sub0 : List (List Char)) (ob vroot v : Node) (i : Nat),
      vri = (i : Int) + (m : Int) →
      (∀ s ∈ rest.take (m + 1), s.take 2 ≠ ['@', '@']) →
      walkTo ob (rest.take (m + 1)) = some v →
      m + 1 ≤ rest.length →
      (travLoop root vrt vpt vri sub0 ob vroot i rest).virtual_root = v := by
  induction m with
  | zero =>
    intro rest root vrt vpt vri sub0 ob vroot v i hvri hat hwalk hlen
    match rest with
    | [] => simp at hlen
    | seg :: rest' =>
      rw [List.take_succ_cons, List.take_zero] at hat hwalk
      have hAt : ¬seg.take 2 = ['@', '@'] := hat seg (by simp)
      unfold walkTo at hwalk
      match hT : ob.childTbl with
      | none => rw [hT] at hwalk; simp at hwalk
      | some tbl =>
        rw [hT] at hwalk
        dsimp only at hwalk
        match hF : assocFind tbl seg with
        | none => rw [hF] at hwalk; simp at hwalk
        | some next =>
          rw [hF] at hwalk
          have hv : next = v := by
            unfold walkTo at hwalk
            simpa using hwalk
          subst hv
          rw [travLoop_cons_step root vrt vpt vri sub0 ob vroot i seg rest' tbl next hAt hT hF,
            if_pos (by omega)]
          exact travLoop_vroot_stay rest' root vrt vpt vri sub0 next next (i + 1)
            (by omega)
  | succ m ih =>
    intro rest root vrt vpt vri sub0 ob vroot v i hvri hat hwalk hlen
    match rest with
    | [] => simp at hlen
    | seg :: rest' =>
      rw [List.take_succ_cons] at hat hwalk
      have hAt : ¬seg.take 2 = ['@', '@'] := hat seg (by simp)
      unfold walkTo at hwalk
      match hT : ob.childTbl with
      | none => rw [hT] at hwalk; simp at hwalk
      | some tbl =>
        rw [hT] at hwalk
        dsimp only at hwalk
        match hF : assocFind tbl seg with
        | none => rw [hF] at hwalk; simp at hwalk
        | some next =>
          rw [hF] at hwalk
          rw [travLoop_cons_step root vrt vpt vri sub0 ob vroot i seg rest' tbl next hAt hT hF,
            if_neg (by omega)]
          exact ih rest' root vrt vpt vri sub0 next vroot v (i + 1) (by omega)
            (fun s hs => hat s (by simp [hs])) hwalk (by simpa using hlen)

theorem resource_path_tuple_eq (loc : Loc) (els : List PyVal) :
    resource_path_tuple loc els =
      (loc.root :: loc.descend).map (fun n => PyVal.str (nameOrEmpty n)) ++ els := by
  unfold resource_path_tuple _resource_path_list Loc.lineageList
  rw [List.map_reverse, List.reverse_reverse]

theorem resource_path_eq (loc : Loc) (hroot : nameOrEmpty loc.root = []) :
    resource_path loc [] =
      '/' :: joinSep ['/'] ((loc.descend.map nameOrEmpty).map quoteChars) := by
  unfold resource_path
  rw [resource_path_tuple_eq]
  simp only [List.map_cons, hroot, List.append_nil]
  rw [join_sentinel]
  congr 1
  rw [List.map_map, List.map_map]
  rfl

theorem allAscii_quotedPath (segs : List (List Char)) :
    allAscii ('/' :: joinSep ['/'] (segs.map quoteChars)) = true := by
  unfold allAscii
  rw [List.all_eq_true]
  intro c hc
  rw [List.mem_cons] at hc
  rcases hc with rfl | hc
  · decide
  · rcases mem_joinSep _ _ _ hc with h | ⟨x, hx, hcx⟩
    · rw [List.mem_singleton] at h
      subst h
      decide
    · rw [List.mem_map] at hx
      rcases hx with ⟨s, _, rfl⟩
      unfold quoteChars at hcx
      rw [List.mem_map] at hcx
      rcases hcx with ⟨b, hb, rfl⟩
      have hb' := quoteB_lt_128 s b hb
      simp [charToNat_ofNat b (by omega), hb']

theorem path_bytes (segs : List (List Char)) :
    ('/' :: joinSep ['/'] (segs.map quoteChars)).map Char.toNat =
      47 :: joinSep [47] (segs.map quoteB) := by
  simp only [List.map_cons]
  congr 1
  rw [map_joinSep]
  congr 1
  rw [List.map_map]
  apply List.map_congr_left
  intro s _
  exact map_toNat_ofNat (quoteB s) (quoteB_lt_128 s)

theorem decode_quoted_path (segs : List (List Char)) :
    decode_path_info
        (percentDecode (('/' :: joinSep ['/'] (segs.map quoteChars)).map Char.toNat)) =
      .ok ('/' :: joinSep ['/'] segs) := by
  rw [path_bytes, percentDecode_cons_ne37 47 _ (by omega), percentDecode_joinSep_quoteB]
  unfold decode_path_info utf8Decode
  rw [utf8_decode_one 47 0 _ (by omega), utf8_decode_joinSep]
  rfl

theorem mgtCall_roundtrip (loc : Loc)
    (hwf : wfDown loc.root loc.descend)
    (hclean : ∀ n ∈ loc.descend, cleanSegName (nameOrEmpty n)) :
    mgtCall loc.root ⟨'/' :: joinSep ['/'] (loc.descend.map nameOrEmpty), none⟩ =
      ⟨loc.node, [], [], loc.descend.map nameOrEmpty, loc.root, [], loc.root⟩ := by
  unfold mgtCall
  dsimp only
  rw [if_neg (by simp)]
  match hd : loc.descend with
  | [] =>
    unfold mgtWalkTop
    rw [if_pos (by simp [joinSep])]
    unfold Loc.node
    rw [hd]
    rfl
  | d :: ds =>
    have hsegs : ∀ s ∈ (d :: ds).map nameOrEmpty, cleanSegName s := by
      intro s hs
      rw [List.mem_map] at hs
      obtain ⟨n, hn, rfl⟩ := hs
      exact hclean n (by rw [hd]; exact hn)
    have hne : (nameOrEmpty d) ≠ [] := (hsegs (nameOrEmpty d) (by simp)).1.1
    have hvp : ('/' :: joinSep ['/'] ((d :: ds).map nameOrEmpty)) ≠ ['/'] := by
      intro hcontra
      have : joinSep ['/'] ((d :: ds).map nameOrEmpty) = [] := by
        simpa using hcontra
      exact joinSep_ne_nil_head _ _ (by simpa using hne) (by simpa using this)
    unfold mgtWalkTop
    rw [if_neg hvp]
    have hsplit : split_path_info ('/' :: joinSep ['/'] ((d :: ds).map nameOrEmpty)) =
        (d :: ds).map nameOrEmpty := by
      apply split_path_info_slash_join
      · simp
      · intro s hs
        exact (hsegs s hs).1
      · intro s hs
        exact (hsegs s hs).2.1
    rw [hsplit]
    have hwf' : wfDown loc.root (d :: ds) := hd ▸ hwf
    rw [travLoop_walk_chain (d :: ds) loc.root loc.root [] ((d :: ds).map nameOrEmpty)
      [] loc.root 0 hwf' (fun n hn => by
        have := hsegs (nameOrEmpty n) (List.mem_map_of_mem _ hn)
        exact this.2.2)]
    unfold Loc.node
    rw [hd]

theorem traverse_roundtrip (loc : Loc)
    (hwf : wfDown loc.root loc.descend)
    (hroot : nameOrEmpty loc.root = [])
    (hclean : ∀ n ∈ loc.descend, cleanSegName (nameOrEmpty n)) :
    Pyramid.traverse loc (.str (resource_path loc [])) =
      .ok ⟨loc.node, [], [], loc.descend.map nameOrEmpty, loc.root, [], loc.root⟩ := by
  have hpath := resource_path_eq loc hroot
  unfold Pyramid.traverse
  dsimp only
  rw [hpath, if_pos (allAscii_quotedPath (loc.descend.map nameOrEmpty)),
    decode_quoted_path (loc.descend.map nameOrEmpty)]
  have hhead : ('/' :: joinSep ['/']
      (List.map quoteChars (List.map nameOrEmpty loc.descend))).head? = some '/' := rfl
  rw [if_pos hhead]
  exact congrArg Except.ok (mgtCall_roundtrip loc hwf hclean)

theorem traverse_no_keyError (loc : Loc) (p : TravPath) (v : List Char) :
    Pyramid.traverse loc p ≠ .error (.keyError v) := by
  unfold Pyramid.traverse
  dsimp only
  split
  · split
    · intro hcontra
      simp at hcontra
    · intro hcontra
      simp at hcontra
  · intro hcontra
    simp at hcontra

theorem split_path_info_nil : split_path_info [] = [] := rfl

theorem joinSep_append_nil (qs : List (List Char)) (h : qs ≠ []) :
    joinSep ['/'] (qs ++ [[]]) = joinSep ['/'] qs ++ ['/'] := by
  induction qs with
  | nil => exact absurd rfl h
  | cons x rest ih =>
    cases rest with
    | nil => simp [joinSep]
    | cons y t =>
      have ih' := ih (by simp)
      have hstep : (x :: y :: t) ++ [[]] = x :: ((y :: t) ++ [[]]) := rfl
      rw [hstep]
      have hcc : joinSep ['/'] (x :: ((y :: t) ++ [[]])) =
          x ++ ['/'] ++ joinSep ['/'] ((y :: t) ++ [[]]) := by
        rw [List.cons_append]
        exact joinSep_cons_cons _ x _ _
      rw [hcc, ih', joinSep_cons_cons]
      simp [List.append_assoc]

theorem joinSep_len2_ne_nil (qs : List (List Char)) (h : 2 ≤ qs.length) :
    joinSep ['/'] qs ≠ [] := by
  match qs with
  | [] => simp at h
  | [x] => simp at h
  | x :: y :: t =>
    rw [joinSep_cons_cons]
    simp

theorem join_append_empty (t : List PyVal)
    (hne : joinSep ['/']
        (t.map (fun v => quote_path_segment v PATH_SEGMENT_SAFE)) ≠ []) :
    _join_path_tuple (t ++ [PyVal.str []]) = _join_path_tuple t ++ ['/'] := by
  have ht : t ≠ [] := by
    intro hcon
    subst hcon
    exact hne rfl
  unfold _join_path_tuple
  rw [if_neg (by simp), if_neg ht]
  dsimp only
  have hq : quote_path_segment (PyVal.str []) PATH_SEGMENT_SAFE = [] := rfl
  rw [List.map_append, List.map_cons, List.map_nil, hq,
    joinSep_append_nil _ (by simpa using ht)]
  rw [if_neg (by simp), if_neg hne]

/-- C1 (counterexample): the round-trip claim fails as stated.  The leaf
named `@@x` has a clean name in the claim's sense (non-empty, not `.`,
not `..`), its tree is location-aware and its root's name is empty, yet
`resolve(root, resource_path(N))` stops on the view-selector marker: the
resulting `view_name` is `"x"` (not empty) and the context is the root,
not the leaf. -/
theorem c1_claim_counterexample :
    wfDown locAt.root locAt.descend ∧
    nameOrEmpty locAt.root = [] ∧
    (∀ n ∈ locAt.descend, nameOrEmpty n ≠ [] ∧ nameOrEmpty n ≠ ['.'] ∧
      nameOrEmpty n ≠ ['.', '.']) ∧
    Pyramid.traverse locAt (.str (resource_path locAt [])) =
      .ok ⟨cxRootAt, cs "x", [], [], cxRootAt, [], cxRootAt⟩ ∧
    cs "x" ≠ ([] : List Char) ∧
    cxRootAt.name ≠ (locAt.node).name := by
  refine ⟨⟨⟨[(cs "@@x", cxAt)], rfl, rfl⟩, trivial⟩, rfl, ?_, rfl, by decide, by decide⟩
  intro n hn
  have hn' : n = cxAt := by simpa [locAt] using hn
  subst hn'
  refine ⟨by decide, by decide, by decide⟩

/-- C1 (amended): the round-trip holds once "clean" additionally requires
that each ancestor name contains no `'/'` (a slash-bearing name is
percent-decoded back into a separator before splitting) and does not
begin with the view-selector marker `@@`.  For every location-aware
resource whose non-root ancestors all have such names and whose root
name is empty, traversing the joined quoted path from the root resolves
back to the resource with empty `view_name` (and empty subpath, the full
segment list as `traversed`, and the physical root as virtual root). -/
theorem c1_roundtrip (loc : Loc)
    (hwf : wfDown loc.root loc.descend)
    (hroot : nameOrEmpty loc.root = [])
    (hclean : ∀ n ∈ loc.descend, cleanSegName (nameOrEmpty n)) :
    Pyramid.traverse loc (.str (resource_path loc [])) =
      .ok ⟨loc.node, [], [], loc.descend.map nameOrEmpty, loc.root, [], loc.root⟩ :=
  traverse_roundtrip loc hwf hroot hclean

/-- C1 (witness): the amended round-trip at the concrete resource `/a`. -/
theorem c1_roundtrip_witness :
    (wfDown locA.root locA.descend ∧ nameOrEmpty locA.root = [] ∧
      (∀ n ∈ locA.descend, cleanSegName (nameOrEmpty n))) ∧
    Pyramid.traverse locA (.str (resource_path locA [])) =
      .ok ⟨locA.node, [], [], [cs "a"], locA.root, [], locA.root⟩ := by
  have h1 : wfDown locA.root locA.descend := ⟨⟨[(cs "a", nodeA)], rfl, rfl⟩, trivial⟩
  have h2 : nameOrEmpty locA.root = [] := rfl
  have h3 : ∀ n ∈ locA.descend, cleanSegName (nameOrEmpty n) := by
    intro n hn
    have hn' : n = nodeA := by simpa [locA] using hn
    subst hn'
    exact ⟨⟨by decide, by decide, by decide⟩, by decide, by decide⟩
  have h := c1_roundtrip locA h1 h2 h3
  rw [h]
  exact ⟨⟨h1, h2, h3⟩, rfl⟩

/-- C2 (counterexample): the claimed join formula fails on the singleton
relative tuple `("a",)` — the code returns `"a"`, while the claim
prescribes `"/" + "a" = "/a"`.  The code performs `'/'.join(...)`, which
inserts no leading slash; the leading slash of conventional absolute
tuples comes from their leading empty-string sentinel segment. -/
theorem c2_claim_counterexample :
    _join_path_tuple [PyVal.str (cs "a")] = cs "a" ∧
    _join_path_tuple [PyVal.str (cs "a")] ≠
      '/' :: joinSep ['/'] ([PyVal.str (cs "a")].map
        (fun v => quote_path_segment v PATH_SEGMENT_SAFE)) :=
  ⟨rfl, by decide⟩

/-- C2 (amended): join of the empty tuple is `"/"`; join of a tuple whose
first element is the empty-string sentinel (the absolute-path convention)
is `"/"` followed by the remaining quoted segments joined by `"/"`; and in
general a non-empty tuple joins its quoted segments with `"/"` inserting
nothing, falling back to `"/"` when that join is the empty string (the
`tuple and join or '/'` truthiness chain). -/
theorem c2_join_formula :
    _join_path_tuple [] = ['/'] ∧
    (∀ rest : List PyVal,
      _join_path_tuple (PyVal.str [] :: rest) =
        '/' :: joinSep ['/'] (rest.map (fun v => quote_path_segment v PATH_SEGMENT_SAFE))) ∧
    (∀ t : List PyVal, t ≠ [] →
      _join_path_tuple t =
        if joinSep ['/'] (t.map (fun v => quote_path_segment v PATH_SEGMENT_SAFE)) = []
        then ['/']
        else joinSep ['/'] (t.map (fun v => quote_path_segment v PATH_SEGMENT_SAFE))) := by
  refine ⟨rfl, join_sentinel, ?_⟩
  intro t ht
  unfold _join_path_tuple
  rw [if_neg ht]

/-- C2 (witness): the amended join formula at concrete tuples, including
the spec's quoting example with a space and an embedded slash. -/
theorem c2_join_formula_witness :
    _join_path_tuple [PyVal.str [], PyVal.str (cs "my archives"), PyVal.str (cs "a/b")] =
      cs "/my%20archives/a%2Fb" ∧
    _join_path_tuple [PyVal.str (cs "b")] = cs "b" := by
  constructor
  · have h := c2_join_formula.2.1 [PyVal.str (cs "my archives"), PyVal.str (cs "a/b")]
    rw [h]
    decide
  · have h := c2_join_formula.2.2 [PyVal.str (cs "b")] (by decide)
    rw [h]
    decide

/-- C3: `split_path_info` equals the spec's reference normalization
(strip one slash at each end, split, then discard/pop/append); its result
never contains an empty, `"."`, or `".."` entry; and the three
dot-segment examples evaluate as the spec states. -/
theorem c3_split_normalization :
    (∀ p : List Char, split_path_info p = splitPathInfoSpec p) ∧
    (∀ p : List Char, ∀ s ∈ split_path_info p,
      s ≠ [] ∧ s ≠ ['.'] ∧ s ≠ ['.', '.']) ∧
    split_path_info (cs "/a/b/../c/") = [cs "a", cs "c"] ∧
    split_path_info (cs "/a/./b//c") = [cs "a", cs "b", cs "c"] ∧
    split_path_info (cs "/../a") = [cs "a"] := by
  refine ⟨?_, ?_, by decide, by decide, by decide⟩
  · intro p
    rw [split_path_info_eq_clean_split]
    unfold splitPathInfoSpec
    rw [dropOneTrailing_clean_split (dropOneLeadingSlash p), dropOneLeading_clean_split p]
  · intro p s hs
    exact split_path_info_mem p s hs

/-- C3 (witness): the reference equality and the cleanliness property at
a concrete path mixing repeated slashes and dot segments. -/
theorem c3_split_normalization_witness :
    split_path_info (cs "/x//./y/../z/") = splitPathInfoSpec (cs "/x//./y/../z/") ∧
    (cs "x") ∈ split_path_info (cs "/x//./y/../z/") ∧ (cs "x") ≠ [] := by
  refine ⟨c3_split_normalization.1 (cs "/x//./y/../z/"), by decide, ?_⟩
  exact (c3_split_normalization.2.1 (cs "/x//./y/../z/") (cs "x") (by decide)).1

/-- C4: when the current node exposes a lookup table with no entry for the
current (non-view-selector) segment, the walk stops there: the context is
the current node, the `view_name` is that segment, and the `subpath` is
the remaining unconsumed segments; concretely, a root with an empty
lookup resolves `/x/y` to context = root, `view_name = "x"`,
`subpath = ("y",)`. -/
theorem c4_missing_child_stop :
    (∀ (root : Node) (vrt vpt : List (List Char)) (vri : Int)
      (sub0 : List (List Char)) (ob vroot : Node) (i : Nat) (seg : List Char)
      (rest : List (List Char)) (tbl : List (List Char × Node)),
      vpt.drop i = seg :: rest →
      seg.take 2 ≠ ['@', '@'] →
      ob.childTbl = some tbl →
      assocFind tbl seg = none →
      travLoop root vrt vpt vri sub0 ob vroot i (seg :: rest) =
        ⟨ob, seg, rest, vpt.take (vri + (i : Int) + 1).toNat, vroot, vrt, root⟩) ∧
    Pyramid.traverse locEmptyLookup (.str (cs "/x/y")) =
      .ok ⟨rootEmptyLookup, cs "x", [cs "y"], [], rootEmptyLookup, [],
        rootEmptyLookup⟩ := by
  refine ⟨?_, rfl⟩
  intro root vrt vpt vri sub0 ob vroot i seg rest tbl hdrop hAt hT hM
  have h2 := List.drop_drop 1 i vpt
  rw [hdrop] at h2
  simp only [List.drop_succ_cons, List.drop_zero] at h2
  have h3 : List.drop (i + 1) vpt = rest := h2.symm
  rw [travLoop_cons_miss root vrt vpt vri sub0 ob vroot i seg rest tbl hAt hT hM, h3]

/-- C4 (witness): the stop record at the concrete missing-child state. -/
theorem c4_missing_child_stop_witness :
    travLoop rootEmptyLookup [] [cs "x", cs "y"] (-1) [] rootEmptyLookup
        rootEmptyLookup 0 (cs "x" :: [cs "y"]) =
      ⟨rootEmptyLookup, cs "x", [cs "y"], [], rootEmptyLookup, [],
        rootEmptyLookup⟩ := by
  have h := c4_missing_child_stop.1 rootEmptyLookup [] [cs "x", cs "y"] (-1) []
    rootEmptyLookup rootEmptyLookup 0 (cs "x") [cs "y"] [] rfl (by decide) rfl rfl
  simpa using h

/-- C5: a segment beginning with the two-character view-selector marker
`@@` stops the walk immediately: the context is the node reached so far,
the `view_name` is the segment with the marker removed, and the `subpath`
is the remaining segments; concretely, `/a/@@edit` over a root with child
`a` (which has no lookup capability) yields context = `a`,
`view_name = "edit"`. -/
theorem c5_view_selector_stop :
    (∀ (root : Node) (vrt vpt : List (List Char)) (vri : Int)
      (sub0 : List (List Char)) (ob vroot : Node) (i : Nat) (seg : List Char)
      (rest : List (List Char)),
      vpt.drop i = seg :: rest →
      seg.take 2 = ['@', '@'] →
      travLoop root vrt vpt vri sub0 ob vroot i (seg :: rest) =
        ⟨ob, seg.drop 2, rest, vpt.take (vri + (i : Int) + 1).toNat,
          vroot, vrt, root⟩) ∧
    Pyramid.traverse locRootA (.str (cs "/a/@@edit")) =
      .ok ⟨nodeA, cs "edit", [], [cs "a"], rootWithA, [], rootWithA⟩ := by
  refine ⟨?_, rfl⟩
  intro root vrt vpt vri sub0 ob vroot i seg rest hdrop hAt
  have h2 := List.drop_drop 1 i vpt
  rw [hdrop] at h2
  simp only [List.drop_succ_cons, List.drop_zero] at h2
  have h3 : List.drop (i + 1) vpt = rest := h2.symm
  rw [travLoop_cons_at root vrt vpt vri sub0 ob vroot i seg rest hAt, h3]

/-- C5 (witness): the view-selector stop at the concrete state reached
after consuming `a` in `/a/@@edit`. -/
theorem c5_view_selector_stop_witness :
    travLoop rootWithA [] [cs "a", cs "@@edit"] (-1) [] nodeA rootWithA 1
        [cs "@@edit"] =
      ⟨nodeA, cs "edit", [], [cs "a"], rootWithA, [], rootWithA⟩ := by
  have h := c5_view_selector_stop.1 rootWithA [] [cs "a", cs "@@edit"] (-1) []
    nodeA rootWithA 1 (cs "@@edit") [] rfl (by decide)
  simpa using h

/-- C6: a path whose bytes are not valid UTF-8 makes the splitting stage
fail with a `URLDecodeError` carrying the encoding name, the input, the
offending byte range and the reason; a decodable path instead yields the
split tuple (never a stop-early record); `traversal_path` propagates the
same error after percent-unquoting, and the whole resolution through
`traverse` aborts with that error and no resolution record. -/
theorem c6_decode_failure :
    (∀ (bs : List Nat) (e : UDecErr), decode_path_info bs = .error e →
      traversal_path_info bs =
        .error (.urlDecode (cs "utf-8") bs e.start e.stop e.reason)) ∧
    (∀ (bs : List Nat) (s : List Char), decode_path_info bs = .ok s →
      traversal_path_info bs = .ok (split_path_info s)) ∧
    (∀ (p : List Char) (e : UDecErr), allAscii p = true →
      decode_path_info (percentDecode (p.map Char.toNat)) = .error e →
      traversal_path p =
        .error (.urlDecode (cs "utf-8") (percentDecode (p.map Char.toNat))
          e.start e.stop e.reason)) ∧
    (∀ (loc : Loc) (p : List Char) (e : UDecErr), allAscii p = true →
      decode_path_info (percentDecode (p.map Char.toNat)) = .error e →
      Pyramid.traverse loc (.str p) =
        .error (.urlDecode (cs "utf-8") (percentDecode (p.map Char.toNat))
          e.start e.stop e.reason)) := by
  refine ⟨?_, ?_, ?_, ?_⟩
  · intro bs e he
    unfold traversal_path_info
    rw [he]
  · intro bs s hs
    unfold traversal_path_info
    rw [hs]
  · intro p e hascii he
    unfold traversal_path
    rw [if_pos hascii]
    unfold traversal_path_info
    rw [he]
  · intro loc p e hascii he
    unfold Pyramid.traverse
    dsimp only
    rw [if_pos hascii, he]

/-- C6 (witness): the stray byte `0xFF` (and the percent-encoded path
`/%FF`) fail with the full error data, byte range included. -/
theorem c6_decode_failure_witness :
    traversal_path_info [255] =
      .error (.urlDecode (cs "utf-8") [255] 0 1 (cs "invalid start byte")) ∧
    Pyramid.traverse locEmptyLookup (.str (cs "/%FF")) =
      .error (.urlDecode (cs "utf-8") [47, 255] 1 2 (cs "invalid start byte")) := by
  constructor
  · exact c6_decode_failure.1 [255] ⟨0, 1, cs "invalid start byte"⟩ rfl
  · exact c6_decode_failure.2.2.2 locEmptyLookup (cs "/%FF")
      ⟨1, 2, cs "invalid start byte"⟩ (by decide) rfl

/-- C7: `find_resource` raises its `KeyError` exactly when traversal
leaves a non-empty `view_name`; with an empty `view_name` it returns the
resolved context; any error from the traversal itself passes through
unchanged, and the traversal never produces the `KeyError` — it is the
only error this helper introduces. -/
theorem c7_find_resource_keyerror (loc : Loc) (p : TravPath) :
    (∀ d : TravRecord, Pyramid.traverse loc p = .ok d →
      (d.view_name ≠ [] → find_resource loc p = .error (.keyError d.view_name)) ∧
      (d.view_name = [] → find_resource loc p = .ok d.context)) ∧
    (∀ v : List Char, find_resource loc p = .error (.keyError v) →
      ∃ d : TravRecord, Pyramid.traverse loc p = .ok d ∧ d.view_name = v ∧ v ≠ []) ∧
    (∀ e : PyErr, Pyramid.traverse loc p = .error e → find_resource loc p = .error e) ∧
    (∀ v : List Char, Pyramid.traverse loc p ≠ .error (.keyError v)) := by
  refine ⟨?_, ?_, ?_, fun v => traverse_no_keyError loc p v⟩
  · intro d hd
    constructor
    · intro hv
      unfold find_resource
      rw [hd]
      dsimp only
      rw [if_pos hv]
    · intro hv
      unfold find_resource
      rw [hd]
      dsimp only
      rw [if_neg (by simp [hv])]
  · intro v hv
    unfold find_resource at hv
    rcases htr : Pyramid.traverse loc p with e | d
    · rw [htr] at hv
      dsimp only at hv
      injection hv with hv'
      subst hv'
      exact absurd htr (traverse_no_keyError loc p v)
    · rw [htr] at hv
      dsimp only at hv
      by_cases hvn : d.view_name ≠ []
      · rw [if_pos hvn] at hv
        injection hv with hv'
        injection hv' with hv''
        exact ⟨d, rfl, hv'', by rw [← hv'']; exact hvn⟩
      · rw [if_neg hvn] at hv
        simp at hv
  · intro e he
    unfold find_resource
    rw [he]

/-- C7 (witness): the `KeyError` branch at `/x` over an empty-lookup root
and the success branch at `/`. -/
theorem c7_find_resource_keyerror_witness :
    find_resource locEmptyLookup (.str (cs "/x")) = .error (.keyError (cs "x")) ∧
    find_resource locEmptyLookup (.str (cs "/")) = .ok rootEmptyLookup := by
  have h1 := ((c7_find_resource_keyerror locEmptyLookup (.str (cs "/x"))).1
    ⟨rootEmptyLookup, cs "x", [], [], rootEmptyLookup, [], rootEmptyLookup⟩ rfl).1
    (by decide)
  have h2 := ((c7_find_resource_keyerror locEmptyLookup (.str (cs "/"))).1
    ⟨rootEmptyLookup, [], [], [], rootEmptyLookup, [], rootEmptyLookup⟩ rfl).2 rfl
  exact ⟨h1, h2⟩

/-- C8: with a virtual-root header the traverser prepends the decoded
header path to the requested path, uses the split header tuple with
`vroot_idx = len - 1`, and records as virtual root the node reached when
the walk consumes the segment at index `vroot_idx`; without a header
`vroot_idx = -1` and the virtual root stays the physical root; concretely,
over `root → vh → root → page` with header `/vh/root`, resolving `/page`
yields `virtual_root` = the node at `/vh/root` and context = `page`. -/
theorem c8_virtual_root :
    (∀ (root : Node) (pi h : List Char),
      mgtCall root ⟨pi, some h⟩ =
        mgtWalkTop root (split_path_info h) (h ++ (if pi = [] then ['/'] else pi))
          (((split_path_info h).length : Int) - 1) [] ∧
      mgtCall root ⟨pi, none⟩ =
        mgtWalkTop root [] (if pi = [] then ['/'] else pi) (-1) []) ∧
    (∀ (root : Node) (pi : List Char),
      (mgtCall root ⟨pi, none⟩).virtual_root = root) ∧
    (∀ (root : Node) (h pi : List Char) (v : Node) (k : Nat),
      k = (split_path_info h).length →
      1 ≤ k →
      k ≤ (split_path_info (h ++ (if pi = [] then ['/'] else pi))).length →
      (∀ s ∈ (split_path_info (h ++ (if pi = [] then ['/'] else pi))).take k,
        s.take 2 ≠ ['@', '@']) →
      walkTo root ((split_path_info (h ++ (if pi = [] then ['/'] else pi))).take k) =
        some v →
      (mgtCall root ⟨pi, some h⟩).virtual_root = v) ∧
    mgtCall c8root ⟨cs "/page", some (cs "/vh/root")⟩ =
      ⟨c8page, [], [], [cs "vh", cs "root", cs "page"], c8r2,
        [cs "vh", cs "root"], c8root⟩ := by
  refine ⟨fun root pi h => ⟨rfl, rfl⟩, ?_, ?_, rfl⟩
  · intro root pi
    show (mgtWalkTop root [] (if pi = [] then ['/'] else pi) (-1) []).virtual_root = root
    unfold mgtWalkTop
    by_cases hvp : (if pi = [] then ['/'] else pi) = ['/']
    · rw [if_pos hvp]
    · rw [if_neg hvp]
      exact travLoop_vroot_stay _ root [] _ (-1) [] root root 0 (by omega)
  · intro root h pi v k hk hk1 hklen hat hwalk
    show (mgtWalkTop root (split_path_info h) (h ++ (if pi = [] then ['/'] else pi))
      (((split_path_info h).length : Int) - 1) []).virtual_root = v
    have hhne : h ≠ [] := by
      intro hcon
      subst hcon
      rw [split_path_info_nil] at hk
      simp at hk
      omega
    have hvne : (h ++ (if pi = [] then ['/'] else pi)) ≠ ['/'] := by
      intro hcon
      have hlh : 0 < h.length := List.length_pos.2 hhne
      have hlp : 0 < (if pi = [] then ['/'] else pi).length := by
        split
        · simp
        · next hne => exact List.length_pos.2 hne
      have hlc := congrArg List.length hcon
      rw [List.length_append] at hlc
      simp at hlc
      omega
    unfold mgtWalkTop
    rw [if_neg hvne]
    have hm : k - 1 + 1 = k := by omega
    apply travLoop_vroot_capture (k - 1) _ root _ _ _ [] root root v 0
    · omega
    · rw [hm]
      exact hat
    · rw [hm]
      exact hwalk
    · rw [hm]
      exact hklen

/-- C8 (witness): the virtual-root capture and the headerless default at
the concrete `root → vh → root → page` tree. -/
theorem c8_virtual_root_witness :
    (mgtCall c8root ⟨cs "/page", some (cs "/vh/root")⟩).virtual_root = c8r2 ∧
    (mgtCall c8root ⟨cs "/page", none⟩).virtual_root = c8root := by
  constructor
  · exact c8_virtual_root.2.2.1 c8root (cs "/vh/root") (cs "/page") c8r2 2 rfl
      (by omega) (by decide) (by decide) rfl
  · exact c8_virtual_root.2.1 c8root (cs "/page")

/-- C9: `ResourceURL` computes the physical path of a non-root resource
as the join of its full path tuple with a trailing empty segment appended
(so it ends in `'/'`), and of the root (whose name is empty per the data
model) as the bare `"/"` with no trailing slash — under any virtual-root
header state. -/
theorem rurl_physical (loc : Loc) (vh : Option (List Char)) :
    (ResourceURL_init loc vh).physical_path =
      if resource_path_tuple loc [] ≠ [PyVal.str []]
      then _join_path_tuple (resource_path_tuple loc []) ++ ['/']
      else _join_path_tuple (resource_path_tuple loc []) := by
  unfold ResourceURL_init
  dsimp only
  cases vh with
  | none => rfl
  | some vr0 =>
    rw [apply_ite RURL.physical_path]
    dsimp only
    rw [ite_self]

theorem c9_physical_path (loc : Loc) (vh : Option (List Char))
    (hroot : nameOrEmpty loc.root = []) :
    (loc.descend = [] → (ResourceURL_init loc vh).physical_path = ['/']) ∧
    (loc.descend ≠ [] →
      (ResourceURL_init loc vh).physical_path =
        _join_path_tuple (resource_path_tuple loc [] ++ [PyVal.str []])) := by
  have hppt : resource_path_tuple loc [] =
      (loc.root :: loc.descend).map (fun n => PyVal.str (nameOrEmpty n)) := by
    rw [resource_path_tuple_eq]
    simp
  constructor
  · intro hd
    have h0 : resource_path_tuple loc [] = [PyVal.str []] := by
      rw [hppt, hd, List.map_cons, List.map_nil, hroot]
    rw [rurl_physical, h0, if_neg (by simp)]
    rfl
  · intro hd
    have hlen2 : 2 ≤ (resource_path_tuple loc []).length := by
      rw [hppt]
      simp only [List.length_map, List.length_cons]
      have := List.length_pos.2 hd
      omega
    have hne0 : resource_path_tuple loc [] ≠ [PyVal.str []] := by
      intro hcon
      rw [hcon] at hlen2
      simp at hlen2
    have hjne : joinSep ['/'] ((resource_path_tuple loc []).map
        (fun v => quote_path_segment v PATH_SEGMENT_SAFE)) ≠ [] := by
      apply joinSep_len2_ne_nil
      rw [List.length_map]
      exact hlen2
    have hja := join_append_empty (resource_path_tuple loc []) hjne
    rw [rurl_physical, if_pos hne0, hja]

/-- C9 (witness): the physical path of the leaf `/a` is `"/a/"` and of a
bare root is `"/"`. -/
theorem c9_physical_path_witness :
    (ResourceURL_init locA none).physical_path = cs "/a/" ∧
    (ResourceURL_init locEmptyLookup none).physical_path = ['/'] := by
  constructor
  · have h := (c9_physical_path locA none rfl).2 (List.cons_ne_nil nodeA [])
    rw [h]
    decide
  · exact (c9_physical_path locEmptyLookup none rfl).1 rfl

/-- C10: `quote_path_segment` on a value whose class is neither `str` nor
`bytes` (modelled by an integer) does not fail: it coerces the value with
`str()` and quotes that, so it agrees with quoting the `str()` image under
any safe set, and equals the percent-encoding of the UTF-8 bytes of the
decimal representation. -/
theorem c10_quote_coercion :
    (∀ (n : Int) (safe : List Char),
      quote_path_segment (PyVal.intVal n) safe =
        quote_path_segment (PyVal.str (pyStr (PyVal.intVal n))) safe) ∧
    (∀ (n : Int) (safe : List Char),
      quote_path_segment (PyVal.intVal n) safe =
        url_quote (pyStr (PyVal.intVal n)) safe) ∧
    quote_path_segment (PyVal.intVal 123) PATH_SEGMENT_SAFE = cs "123" :=
  ⟨fun _ _ => rfl, fun _ _ => rfl, by decide⟩
